import Mathlib

/-!
Shallow embedding of `mytorch` (files `mytorch/nn/rnn.py` and
`mytorch/optim/sgd.py`).

Tensors of shape `[rows, features]` are modelled as lists of rows; scalar
entries are rationals.  The recurrent unit used by `TimeIterator` is a
parameter (`basic_unit` in the source can be `RNNUnit` or `GRUUnit`), so the
iterator is embedded generically over a function
`unit : List α → Option (List β) → List β` mapping an input slice and an
optional previous-hidden tensor to the new hidden tensor; `none` models
Python's `None`.
-/

namespace MyTorch

/-- The segmentation loop of `TimeIterator.forward`: walking `batch_sizes`,
cut `data[start:end]` with `end = start + batch_sizes[i]`.  Python slicing
`data[start:end]` is `(data.drop start).take (end - start)`. -/
def segments {α : Type} (data : List α) (batch_sizes : List Nat) : List (List α) :=
  match batch_sizes with
  | [] => []
  | b :: rest => data.take b :: segments (data.drop b) rest

/-- The recurrence loop of `TimeIterator.forward` for steps `i > 0`: each
step receives `hidden_states[i-1][:X[i].shape[0]]` as previous hidden.
Each entry of the result records the pair
(`h_previous` passed to the unit, `hidden_state` produced). -/
def stepsFrom {α β : Type} (unit : List α → Option (List β) → List β)
    (prev : List β) : List (List α) → List (Option (List β) × List β)
  | [] => []
  | x :: rest =>
    let hp : Option (List β) := some (prev.take x.length)
    let h : List β := unit x hp
    (hp, h) :: stepsFrom unit h rest

/-- The full recurrence loop of `TimeIterator.forward`: at step `i = 0` the
unit receives the caller-supplied `hidden` argument unchanged. -/
def steps {α β : Type} (unit : List α → Option (List β) → List β)
    (X : List (List α)) (hidden : Option (List β)) : List (Option (List β) × List β) :=
  match X with
  | [] => []
  | x :: rest =>
    let h : List β := unit x hidden
    (hidden, h) :: stepsFrom unit h rest

/-- `hidden_states` of `TimeIterator.forward`: the hidden tensor produced at
each timestep. -/
def hiddenStates {α β : Type} (unit : List α → Option (List β) → List β)
    (X : List (List α)) (hidden : Option (List β)) : List (List β) :=
  (steps unit X hidden).map Prod.snd

/-- The `h_previous` argument passed to the unit at each timestep of
`TimeIterator.forward`. -/
def prevHiddens {α β : Type} (unit : List α → Option (List β) → List β)
    (X : List (List α)) (hidden : Option (List β)) : List (Option (List β)) :=
  (steps unit X hidden).map Prod.fst

/-- A concrete unit (identity on the input slice, ignoring the hidden) used
to evaluate the iterator on concrete packed inputs. -/
def idUnit : List ℕ → Option (List ℕ) → List ℕ := fun x _ => x

/-- `batch_size_sample_count[v]` after the loop
`for i in range(len(batch_sizes)): dict[batch_sizes[i]] = i`:
the last index at which `v` occurs in `batch_sizes` (for `v` in the list). -/
def lastOccurrence : List Nat → Nat → Nat
  | [], _ => 0
  | _ :: rest, v => if v ∈ rest then lastOccurrence rest v + 1 else 0

/-- `sorted(batch_size_sample_count.values())`: one last-occurrence index per
distinct value of `batch_sizes` (`set(batch_sizes)` is modelled by
`List.dedup`; the arbitrary set-iteration order is irrelevant because the
values are sorted). -/
def targetHiddenStepIndices (bs : List Nat) : List Nat :=
  List.insertionSort (· ≤ ·) (bs.dedup.map (lastOccurrence bs))

/-- `hidden_step_per_batch`: per timestep, the 1-row tensor
`hidden_state[None, -1, :]` (the last row of that timestep's hidden state).
Python raises `IndexError` on an empty hidden state; the embedding returns
the empty matrix then, and every claim instance keeps the hidden states
nonempty. -/
def hiddenStepPerBatch {β : Type} (hs : List (List β)) : List (List β) :=
  hs.map (fun h => h.drop (h.length - 1))

structure PackedSequence (γ : Type) where
  data : List γ
  sorted_indices : List Nat
  batch_sizes : List Nat

/-- `TimeIterator.forward`: segment the packed data by `batch_sizes`, run the
recurrence, and return the output `PackedSequence`
(`tensor.cat(hidden_states)` with the input's `sorted_indices` and
`batch_sizes`) together with `tensor.cat(last_hidden_step_per_sample)`. -/
def TimeIterator.forward {α β : Type} (unit : List α → Option (List β) → List β)
    (input : PackedSequence α) (hidden : Option (List β)) :
    PackedSequence β × List β :=
  let X := segments input.data input.batch_sizes
  let hs := hiddenStates unit X hidden
  let last_hidden_step_per_sample :=
    ((targetHiddenStepIndices input.batch_sizes).map
      (fun i => (hiddenStepPerBatch hs).getD i [])).reverse
  (⟨hs.flatten, input.sorted_indices, input.batch_sizes⟩,
   last_hidden_step_per_sample.flatten)

structure Tensor where
  data : List (List ℚ)
  requires_grad : Bool
  is_parameter : Bool

def zerosMat (n m : Nat) : List (List ℚ) :=
  List.replicate n (List.replicate m 0)

def dot (u v : List ℚ) : ℚ := (List.zipWith (· * ·) u v).sum

/-- numpy transpose `.T()`: row `j` of the result is column `j` of `A`. -/
def transposeMat (A : List (List ℚ)) : List (List ℚ) :=
  (List.range (A.headD []).length).map (fun j => A.map (fun r => r.getD j 0))

/-- `@`: matrix product; entry `(i, j)` is the dot product of row `i` of `A`
with column `j` of `B`. -/
def matMul (A B : List (List ℚ)) : List (List ℚ) :=
  A.map (fun r => (transposeMat B).map (fun c => dot r c))

/-- Broadcast addition of a bias row vector over the rows of a matrix. -/
def addRowVec (A : List (List ℚ)) (b : List ℚ) : List (List ℚ) :=
  A.map (fun r => List.zipWith (· + ·) r b)

def matAdd (A B : List (List ℚ)) : List (List ℚ) :=
  List.zipWith (List.zipWith (· + ·)) A B

structure RNNUnit where
  weight_ih : List (List ℚ)
  bias_ih : List ℚ
  weight_hh : List (List ℚ)
  bias_hh : List ℚ
  hidden_size : Nat
  act : Option (ℚ → ℚ)

/-- `RNNUnit.__init__`: the two biases start at `np.zeros(hidden_size)`; the
weight matrices come from `np.random.randn` and are therefore parameters of
the embedding; the activation is selected by string key (the tanh and ReLU
functions live in `mytorch.nn.activations`, an external collaborator, and
are passed in as functions). Any other key leaves no activation set. -/
def RNNUnit.init (hidden_size : Nat) (weight_ih weight_hh : List (List ℚ))
    (nonlinearity : String) (tanhF reluF : ℚ → ℚ) : RNNUnit :=
  ⟨weight_ih, List.replicate hidden_size 0,
   weight_hh, List.replicate hidden_size 0,
   hidden_size,
   if nonlinearity = "tanh" then some tanhF
   else if nonlinearity = "relu" then some reluF
   else none⟩

/-- The zero hidden tensor synthesized by `RNNUnit.forward` when the hidden
argument is absent: zeros of shape `(x.shape[0], hidden_size)` constructed
with `requires_grad=True, is_parameter=True`. -/
def synthesizedHidden (x : Tensor) (hidden_size : Nat) : Tensor :=
  ⟨zerosMat x.data.length hidden_size, true, true⟩

/-- `RNNUnit.forward`: two affine maps summed, then the configured
activation applied pointwise. The `none` result models the
`AttributeError` raised at `self.act` when the unit was constructed with an
unrecognized nonlinearity. -/
def RNNUnit.forward (u : RNNUnit) (x : Tensor) (hidden : Option Tensor) :
    Option (List (List ℚ)) :=
  let h : Tensor :=
    match hidden with
    | none => synthesizedHidden x u.hidden_size
    | some h0 => h0
  let weighted_sum :=
    matAdd (addRowVec (matMul x.data (transposeMat u.weight_ih)) u.bias_ih)
      (addRowVec (matMul h.data (transposeMat u.weight_hh)) u.bias_hh)
  match u.act with
  | some f => some (weighted_sum.map (fun r => r.map f))
  | none => none

/-- A concrete 1-hidden-unit `RNNUnit` (identity activation) used for
closed-instance evaluation. -/
def sampleRNNUnit : RNNUnit := ⟨[[1, 2]], [3], [[4]], [5], 1, some id⟩

/-- A concrete `[1, 2]`-shaped input tensor. -/
def sampleX : Tensor := ⟨[[1, 2]], false, false⟩

/-- A concrete `[1, 1]`-shaped hidden tensor. -/
def sampleH : Tensor := ⟨[[6]], false, false⟩

structure Param where
  data : List ℚ
  grad : List ℚ

structure SGD where
  params : List Param
  lr : ℚ
  momentum : ℚ
  momentums : List (List ℚ)

/-- `SGD.__init__`: momentum buffers start as zeros shaped like each
parameter. -/
def SGD.init (params : List Param) (lr momentum : ℚ) : SGD :=
  ⟨params, lr, momentum, params.map (fun t => List.replicate t.data.length 0)⟩

def vscale (c : ℚ) (v : List ℚ) : List ℚ := v.map (fun a => c * a)

def vadd (u v : List ℚ) : List ℚ := List.zipWith (· + ·) u v

def vsub (u v : List ℚ) : List ℚ := List.zipWith (· - ·) u v

/-- One iteration of the loop body of `SGD.step` at one index:
`momentums[idx] = momentum * momentums[idx] - lr * params[idx].grad.data`
followed by `params[idx].data = params[idx].data + momentums[idx]`. -/
def stepParam (lr momentum : ℚ) (m : List ℚ) (p : Param) : List ℚ × Param :=
  let mNew := vsub (vscale momentum m) (vscale lr p.grad)
  (mNew, ⟨vadd p.data mNew, p.grad⟩)

/-- `SGD.step`: the loop over `range(len(self.params))`; distinct indices do
not interact, so the loop is a `zip`-`map`. -/
def SGD.step (s : SGD) : SGD :=
  let updated :=
    (s.momentums.zip s.params).map (fun mp => stepParam s.lr s.momentum mp.1 mp.2)
  ⟨updated.map Prod.snd, s.lr, s.momentum, updated.map Prod.fst⟩

end MyTorch

namespace MyTorch

theorem segments_length {α : Type} (data : List α) (bs : List Nat) :
    (segments data bs).length = bs.length := by
  induction bs generalizing data with
  | nil => rfl
  | cons b rest ih => simp [segments, ih]

theorem segments_map_length {α : Type} (data : List α) (bs : List Nat)
    (h : bs.sum ≤ data.length) :
    (segments data bs).map List.length = bs := by
  induction bs generalizing data with
  | nil => rfl
  | cons b rest ih =>
    have hb : b ≤ data.length := le_trans (by simp [List.sum_cons]) h
    have hrest : rest.sum ≤ (data.drop b).length := by
      rw [List.length_drop]
      have hs : (b :: rest).sum = b + rest.sum := List.sum_cons
      omega
    simp [segments, List.length_take, Nat.min_eq_left hb, ih _ hrest]

theorem stepsFrom_length {α β : Type} (unit : List α → Option (List β) → List β)
    (X : List (List α)) (p : List β) :
    (stepsFrom unit p X).length = X.length := by
  induction X generalizing p with
  | nil => rfl
  | cons y ys ih => simp [stepsFrom, ih]

theorem steps_length {α β : Type} (unit : List α → Option (List β) → List β)
    (X : List (List α)) (h0 : Option (List β)) :
    (steps unit X h0).length = X.length := by
  cases X with
  | nil => rfl
  | cons x rest => simp [steps, stepsFrom_length]

theorem stepsFrom_succ_fst {α β : Type} (unit : List α → Option (List β) → List β)
    (X : List (List α)) (p : List β) (t : Nat) (h : t + 1 < X.length) :
    ((stepsFrom unit p X).getD (t + 1) (none, [])).fst
      = some ((((stepsFrom unit p X).getD t (none, [])).snd).take
          ((X.getD (t + 1) []).length)) := by
  induction X generalizing p t with
  | nil => simp at h
  | cons x rest ih =>
    cases t with
    | zero =>
      cases rest with
      | nil => simp at h
      | cons y ys => simp [stepsFrom]
    | succ s =>
      have hs : s + 1 < rest.length := by simp at h; omega
      simpa [stepsFrom] using ih (unit x (some (p.take x.length))) s hs

theorem steps_succ_fst {α β : Type} (unit : List α → Option (List β) → List β)
    (X : List (List α)) (h0 : Option (List β)) (t : Nat)
    (ht : 0 < t) (htl : t < X.length) :
    ((steps unit X h0).getD t (none, [])).fst
      = some ((((steps unit X h0).getD (t - 1) (none, [])).snd).take
          ((X.getD t []).length)) := by
  cases X with
  | nil => simp at htl
  | cons x rest =>
    cases t with
    | zero => omega
    | succ s =>
      cases s with
      | zero =>
        cases rest with
        | nil => simp at htl
        | cons y ys => simp [steps, stepsFrom]
      | succ k =>
        have hk : k + 1 < rest.length := by simp at htl; omega
        simpa [steps] using stepsFrom_succ_fst unit rest (unit x h0) k hk

theorem hiddenStates_map_length {α β : Type}
    (unit : List α → Option (List β) → List β)
    (hUnit : ∀ (x : List α) (h : Option (List β)), (unit x h).length = x.length)
    (X : List (List α)) (h0 : Option (List β)) :
    (hiddenStates unit X h0).map List.length = X.map List.length := by
  have aux : ∀ (Y : List (List α)) (p : List β),
      ((stepsFrom unit p Y).map Prod.snd).map List.length = Y.map List.length := by
    intro Y
    induction Y with
    | nil => intro p; rfl
    | cons y ys ih => intro p; simp [stepsFrom, hUnit, ih]
  cases X with
  | nil => rfl
  | cons x rest => simp [hiddenStates, steps, hUnit, aux]

theorem getD_map_fn {γ δ : Type} (f : γ → δ) (L : List γ) (d : γ) :
    ∀ t, (L.map f).getD t (f d) = f (L.getD t d) := by
  induction L with
  | nil => intro t; cases t <;> simp
  | cons a as ih =>
    intro t
    cases t with
    | zero => rfl
    | succ s => simp only [List.map_cons, List.getD_cons_succ]; exact ih s

theorem getD_eq_get_nat {γ : Type} (L : List γ) (d : γ) (t : Nat) (h : t < L.length) :
    L.getD t d = L.get ⟨t, h⟩ := by
  induction L generalizing t with
  | nil => simp at h
  | cons a as ih =>
    cases t with
    | zero => rfl
    | succ s => simpa using ih s (by simpa using h)

theorem segments_getD_length {α : Type} (data : List α) (bs : List Nat) (t : Nat)
    (hsum : bs.sum ≤ data.length) :
    ((segments data bs).getD t []).length = bs.getD t 0 := by
  have h1 := getD_map_fn List.length (segments data bs) [] t
  rw [segments_map_length data bs hsum] at h1
  simpa using h1.symm

theorem hiddenStates_getD_length {α β : Type}
    (unit : List α → Option (List β) → List β)
    (hUnit : ∀ (x : List α) (h : Option (List β)), (unit x h).length = x.length)
    (X : List (List α)) (h0 : Option (List β)) (t : Nat) :
    ((hiddenStates unit X h0).getD t []).length = (X.getD t []).length := by
  have h1 := getD_map_fn List.length (hiddenStates unit X h0) [] t
  have h2 := getD_map_fn List.length X [] t
  rw [hiddenStates_map_length unit hUnit X h0] at h1
  exact h1.symm.trans h2

theorem prevHiddens_getD {α β : Type} (unit : List α → Option (List β) → List β)
    (X : List (List α)) (h0 : Option (List β)) (t : Nat) :
    (prevHiddens unit X h0).getD t none
      = ((steps unit X h0).getD t (none, [])).fst :=
  getD_map_fn Prod.fst (steps unit X h0) (none, []) t

theorem hiddenStates_getD {α β : Type} (unit : List α → Option (List β) → List β)
    (X : List (List α)) (h0 : Option (List β)) (t : Nat) :
    (hiddenStates unit X h0).getD t []
      = ((steps unit X h0).getD t (none, [])).snd :=
  getD_map_fn Prod.snd (steps unit X h0) (none, []) t

/-- **C1.** For every packed input with at least two timesteps and every
timestep `t > 0`, the previous-hidden tensor that `TimeIterator.forward`
passes to the unit is exactly `hidden_states[t-1]` truncated to its first
`batch_sizes[t]` rows (`List.take`, so the rows are taken verbatim in order,
with no permutation or index gathering), and when the unit preserves the row
count that truncation has exactly `batch_sizes[t]` rows. -/
theorem prev_hidden_is_truncation {α β : Type}
    (unit : List α → Option (List β) → List β)
    (hUnit : ∀ (x : List α) (h : Option (List β)), (unit x h).length = x.length)
    (data : List α) (bs : List Nat) (h0 : Option (List β)) (t : Nat)
    (hsum : bs.sum = data.length)
    (hmono : bs.Pairwise (· ≥ ·))
    (ht : 0 < t) (htl : t < bs.length) :
    (prevHiddens unit (segments data bs) h0).getD t none
      = some (((hiddenStates unit (segments data bs) h0).getD (t - 1) []).take
          (bs.getD t 0))
    ∧ (((hiddenStates unit (segments data bs) h0).getD (t - 1) []).take
          (bs.getD t 0)).length = bs.getD t 0 := by
  have hXlen : (segments data bs).length = bs.length := segments_length data bs
  have htX : t < (segments data bs).length := by rw [hXlen]; exact htl
  have hXt : ((segments data bs).getD t []).length = bs.getD t 0 :=
    segments_getD_length data bs t (le_of_eq hsum)
  have ht1 : t - 1 < bs.length := lt_of_le_of_lt (Nat.sub_le t 1) htl
  have hXt1 : ((segments data bs).getD (t - 1) []).length = bs.getD (t - 1) 0 :=
    segments_getD_length data bs (t - 1) (le_of_eq hsum)
  constructor
  · rw [prevHiddens_getD, hiddenStates_getD, ← hXt]
    exact steps_succ_fst unit (segments data bs) h0 t ht htX
  · have hhs : ((hiddenStates unit (segments data bs) h0).getD (t - 1) []).length
        = bs.getD (t - 1) 0 := by
      rw [hiddenStates_getD_length unit hUnit (segments data bs) h0 (t - 1), hXt1]
    have hge : bs.getD t 0 ≤ bs.getD (t - 1) 0 := by
      have hfin : (⟨t - 1, ht1⟩ : Fin bs.length) < ⟨t, htl⟩ := by
        simp [Fin.lt_def]; omega
      have := List.pairwise_iff_get.mp hmono ⟨t - 1, ht1⟩ ⟨t, htl⟩ hfin
      rw [getD_eq_get_nat bs 0 (t - 1) ht1, getD_eq_get_nat bs 0 t htl]
      exact this
    rw [List.length_take, hhs]
    omega

theorem getD_mem_nat {γ : Type} (L : List γ) (d : γ) (t : Nat) (h : t < L.length) :
    L.getD t d ∈ L := by
  induction L generalizing t with
  | nil => simp at h
  | cons a as ih =>
    cases t with
    | zero => simp
    | succ s =>
      rw [List.getD_cons_succ]
      exact List.mem_cons_of_mem a (ih s (by simpa using h))

theorem getD_drop_nat {γ : Type} (L : List γ) (d : γ) (k m : Nat) :
    (L.drop k).getD m d = L.getD (k + m) d := by
  induction L generalizing k with
  | nil => simp
  | cons a as ih =>
    cases k with
    | zero => simp
    | succ j =>
      rw [List.drop_succ_cons, ih j]
      have : j + 1 + m = (j + m) + 1 := by omega
      rw [this, List.getD_cons_succ]

theorem lastOccurrence_lt_length (bs : List Nat) (v : Nat) (hv : v ∈ bs) :
    lastOccurrence bs v < bs.length := by
  induction bs with
  | nil => simp at hv
  | cons b rest ih =>
    by_cases hm : v ∈ rest
    · simp only [lastOccurrence, if_pos hm, List.length_cons]
      exact Nat.succ_lt_succ (ih hm)
    · simp [lastOccurrence, hm]

theorem getD_lastOccurrence (bs : List Nat) (v : Nat) (hv : v ∈ bs) :
    bs.getD (lastOccurrence bs v) 0 = v := by
  induction bs with
  | nil => simp at hv
  | cons b rest ih =>
    by_cases hm : v ∈ rest
    · simp only [lastOccurrence, if_pos hm, List.getD_cons_succ]
      exact ih hm
    · have hb : v = b := by
        rcases List.mem_cons.mp hv with h | h
        · exact h
        · exact absurd h hm
      subst hb
      simp [lastOccurrence, hm]

theorem lastOccurrence_last (bs : List Nat) (v : Nat) (hv : v ∈ bs) :
    ∀ b' ∈ bs.drop (lastOccurrence bs v + 1), b' ≠ v := by
  induction bs with
  | nil => simp at hv
  | cons b rest ih =>
    by_cases hm : v ∈ rest
    · simp only [lastOccurrence, if_pos hm, List.drop_succ_cons]
      exact ih hm
    · simp only [lastOccurrence, if_neg hm, List.drop_succ_cons, List.drop_zero]
      intro b' hb' heq
      exact hm (heq ▸ hb')

theorem lastOccurrence_unique (bs : List Nat) (i : Nat) (hi : i < bs.length)
    (hlast : ∀ b' ∈ bs.drop (i + 1), b' ≠ bs.getD i 0) :
    lastOccurrence bs (bs.getD i 0) = i := by
  induction bs generalizing i with
  | nil => simp at hi
  | cons b rest ih =>
    cases i with
    | zero =>
      have hm : b ∉ rest := by
        intro hmem
        exact hlast b (by simpa using hmem) (by simp)
      simp [lastOccurrence, hm]
    | succ j =>
      have hj : j < rest.length := by simpa using hi
      have hv : rest.getD j 0 ∈ rest := getD_mem_nat rest 0 j hj
      simp only [List.getD_cons_succ] at hlast ⊢
      simp only [lastOccurrence, if_pos hv]
      have := ih j hj (by simpa using hlast)
      omega

theorem mem_lastOccurrence_map (bs : List Nat) (i : Nat) :
    i ∈ bs.dedup.map (lastOccurrence bs)
      ↔ i < bs.length ∧ ∀ b' ∈ bs.drop (i + 1), b' ≠ bs.getD i 0 := by
  constructor
  · intro hmem
    rcases List.mem_map.mp hmem with ⟨v, hvdedup, hvi⟩
    have hv : v ∈ bs := List.mem_dedup.mp hvdedup
    subst hvi
    refine ⟨lastOccurrence_lt_length bs v hv, ?_⟩
    rw [getD_lastOccurrence bs v hv]
    exact lastOccurrence_last bs v hv
  · intro ⟨hi, hlast⟩
    refine List.mem_map.mpr ⟨bs.getD i 0, ?_, ?_⟩
    · exact List.mem_dedup.mpr (getD_mem_nat bs 0 i hi)
    · exact lastOccurrence_unique bs i hi hlast

theorem nodup_lastOccurrence_map (bs : List Nat) :
    (bs.dedup.map (lastOccurrence bs)).Nodup := by
  refine (List.nodup_dedup bs).map_on ?_
  intro x hx y hy hxy
  have hx' : x ∈ bs := List.mem_dedup.mp hx
  have hy' : y ∈ bs := List.mem_dedup.mp hy
  have h1 := getD_lastOccurrence bs x hx'
  have h2 := getD_lastOccurrence bs y hy'
  rw [hxy] at h1
  exact h1.symm.trans h2

theorem targetHiddenStepIndices_eq_filter (bs : List Nat) :
    targetHiddenStepIndices bs
      = (List.range bs.length).filter
          (fun i => (bs.drop (i + 1)).all (fun b => b ≠ bs.getD i 0)) := by
  have hNF : ((List.range bs.length).filter
      (fun i => (bs.drop (i + 1)).all (fun b => b ≠ bs.getD i 0))).Nodup :=
    (List.nodup_range bs.length).filter _
  have hmem : ∀ a, a ∈ bs.dedup.map (lastOccurrence bs)
      ↔ a ∈ (List.range bs.length).filter
          (fun i => (bs.drop (i + 1)).all (fun b => b ≠ bs.getD i 0)) := by
    intro a
    rw [mem_lastOccurrence_map, List.mem_filter, List.mem_range, List.all_eq_true]
    simp
  have hperm : List.Perm (bs.dedup.map (lastOccurrence bs))
      ((List.range bs.length).filter
          (fun i => (bs.drop (i + 1)).all (fun b => b ≠ bs.getD i 0))) :=
    (List.perm_ext_iff_of_nodup (nodup_lastOccurrence_map bs) hNF).mpr hmem
  have hpltF : ((List.range bs.length).filter
      (fun i => (bs.drop (i + 1)).all (fun b => b ≠ bs.getD i 0))).Pairwise (· < ·) :=
    (List.pairwise_lt_range bs.length).sublist (List.filter_sublist _)
  refine List.eq_of_perm_of_sorted
    ((List.perm_insertionSort (· ≤ ·) (bs.dedup.map (lastOccurrence bs))).trans hperm)
    (List.sorted_insertionSort (· ≤ ·) (bs.dedup.map (lastOccurrence bs))) ?_
  exact hpltF.imp le_of_lt

theorem targetHiddenStepIndices_pairwise_lt (bs : List Nat) :
    (targetHiddenStepIndices bs).Pairwise (· < ·) := by
  rw [targetHiddenStepIndices_eq_filter]
  exact (List.pairwise_lt_range bs.length).sublist (List.filter_sublist _)

theorem mem_targetHiddenStepIndices (bs : List Nat) (t : Nat)
    (ht : t ∈ targetHiddenStepIndices bs) :
    t < bs.length ∧ ∀ b' ∈ bs.drop (t + 1), b' ≠ bs.getD t 0 := by
  rw [targetHiddenStepIndices_eq_filter, List.mem_filter, List.mem_range,
    List.all_eq_true] at ht
  refine ⟨ht.1, ?_⟩
  intro b' hb'
  have := ht.2 b' hb'
  simpa using this

theorem drop_length_sub_one {γ : Type} (l : List γ) (d : γ) (h : l ≠ []) :
    l.drop (l.length - 1) = [l.getD (l.length - 1) d] := by
  induction l with
  | nil => simp at h
  | cons a as ih =>
    cases as with
    | nil => simp
    | cons b bs =>
      have hlen : (a :: b :: bs).length - 1 = bs.length + 1 := by simp
      have hlen2 : (b :: bs).length - 1 = bs.length := by simp
      have h2 := ih (by simp)
      rw [hlen2] at h2
      rw [hlen, List.drop_succ_cons, List.getD_cons_succ]
      exact h2

theorem flatten_map_eq_map {γ δ : Type} (g : γ → List δ) (f : γ → δ) (ts : List γ)
    (h : ∀ t ∈ ts, g t = [f t]) : (ts.map g).flatten = ts.map f := by
  induction ts with
  | nil => rfl
  | cons a as ih =>
    rw [List.map_cons, List.map_cons, List.flatten_cons, h a (by simp),
      ih (fun t ht => h t (List.mem_cons_of_mem a ht))]
    rfl

theorem length_filter_range (n t : Nat) (p : Nat → Bool) (ht : t < n)
    (hp : ∀ s, s < n → (p s = true ↔ s ≤ t)) :
    ((List.range n).filter p).length = t + 1 := by
  induction n with
  | zero => omega
  | succ m ih =>
    rw [List.range_succ, List.filter_append]
    by_cases hmt : t = m
    · subst hmt
      have hpm : p t = true := (hp t (Nat.lt_succ_self t)).mpr (le_refl t)
      have hall : (List.range t).filter p = List.range t := by
        refine List.filter_eq_self.mpr ?_
        intro a ha
        exact (hp a (Nat.lt_succ_of_lt (List.mem_range.mp ha))).mpr
          (le_of_lt (List.mem_range.mp ha))
      rw [hall]
      simp [hpm]
    · have htm : t < m := by omega
      have hpm : p m = false := by
        cases hpmv : p m
        · rfl
        · have := (hp m (Nat.lt_succ_self m)).mp hpmv
          omega
      have hrec := ih htm (fun s hs => hp s (Nat.lt_succ_of_lt hs))
      simp [hpm, hrec]

theorem pairwise_getD_ge (bs : List Nat) (hmono : bs.Pairwise (· ≥ ·))
    (i j : Nat) (hij : i ≤ j) (hj : j < bs.length) :
    bs.getD j 0 ≤ bs.getD i 0 := by
  rcases Nat.eq_or_lt_of_le hij with heq | hlt
  · subst heq; exact le_refl _
  · have hi : i < bs.length := lt_trans hlt hj
    have hfin : (⟨i, hi⟩ : Fin bs.length) < ⟨j, hj⟩ := by
      simp only [Fin.lt_def]; omega
    have hrel := List.pairwise_iff_get.mp hmono ⟨i, hi⟩ ⟨j, hj⟩ hfin
    rw [getD_eq_get_nat bs 0 i hi, getD_eq_get_nat bs 0 j hj]
    exact hrel

/-- **C2.** The final-hidden tensor of `TimeIterator.forward` is assembled
exactly as the claim describes: `targetHiddenStepIndices` (the sorted values
of the last-occurrence dictionary built over `set(batch_sizes)`) equals the
ascending list of indices whose `batch_sizes` value never recurs later;
those indices are strictly increasing, hence after `reverse` the assembly
walks timesteps in strictly decreasing order; the returned tensor is that
reversed list mapped to row `batch_sizes[t] - 1` (the last row) of
`hidden_states[t]` and concatenated along the batch dimension; and each
selected timestep `t` belongs to the sample (of sorted index
`batch_sizes[t] - 1`) whose original sequence length is `t + 1` — the count
of timesteps still covering it — so the rows are ordered by strictly
descending original sequence length. -/
theorem final_hidden_assembly {α β : Type}
    (unit : List α → Option (List β) → List β)
    (hUnit : ∀ (x : List α) (h : Option (List β)), (unit x h).length = x.length)
    (data : List α) (si bs : List Nat) (h0 : Option (List β)) (d : β)
    (hsum : bs.sum = data.length)
    (hpos : ∀ b ∈ bs, 0 < b)
    (hmono : bs.Pairwise (· ≥ ·)) :
    targetHiddenStepIndices bs
      = (List.range bs.length).filter
          (fun i => (bs.drop (i + 1)).all (fun b => b ≠ bs.getD i 0))
    ∧ (targetHiddenStepIndices bs).Pairwise (· < ·)
    ∧ (TimeIterator.forward unit ⟨data, si, bs⟩ h0).2
        = ((targetHiddenStepIndices bs).reverse).map
            (fun t => ((hiddenStates unit (segments data bs) h0).getD t []).getD
              (bs.getD t 0 - 1) d)
    ∧ ∀ t ∈ targetHiddenStepIndices bs,
        ((List.range bs.length).filter
          (fun s => bs.getD t 0 - 1 < bs.getD s 0)).length = t + 1 := by
  refine ⟨targetHiddenStepIndices_eq_filter bs,
    targetHiddenStepIndices_pairwise_lt bs, ?_, ?_⟩
  · show ((((targetHiddenStepIndices bs).map
        (fun i => (hiddenStepPerBatch
          (hiddenStates unit (segments data bs) h0)).getD i [])).reverse).flatten)
      = ((targetHiddenStepIndices bs).reverse).map
          (fun t => ((hiddenStates unit (segments data bs) h0).getD t []).getD
            (bs.getD t 0 - 1) d)
    rw [← List.map_reverse]
    refine flatten_map_eq_map _ _ ((targetHiddenStepIndices bs).reverse) ?_
    intro t htmem
    have htT : t ∈ targetHiddenStepIndices bs := List.mem_reverse.mp htmem
    obtain ⟨htl, _⟩ := mem_targetHiddenStepIndices bs t htT
    have hlen : ((hiddenStates unit (segments data bs) h0).getD t []).length
        = bs.getD t 0 := by
      rw [hiddenStates_getD_length unit hUnit (segments data bs) h0 t]
      exact segments_getD_length data bs t (le_of_eq hsum)
    have hp : 0 < bs.getD t 0 := hpos _ (getD_mem_nat bs 0 t htl)
    have hne : (hiddenStates unit (segments data bs) h0).getD t [] ≠ [] := by
      intro hnil
      rw [hnil, List.length_nil] at hlen
      omega
    have h1 : (hiddenStepPerBatch (hiddenStates unit (segments data bs) h0)).getD t []
        = ((hiddenStates unit (segments data bs) h0).getD t []).drop
            (((hiddenStates unit (segments data bs) h0).getD t []).length - 1) :=
      getD_map_fn (fun (h : List β) => h.drop (h.length - 1))
        (hiddenStates unit (segments data bs) h0) [] t
    rw [h1, drop_length_sub_one _ d hne, hlen]
  · intro t htT
    obtain ⟨htl, hlast⟩ := mem_targetHiddenStepIndices bs t htT
    have hp : 0 < bs.getD t 0 := hpos _ (getD_mem_nat bs 0 t htl)
    refine length_filter_range bs.length t _ htl ?_
    intro s hsl
    rw [decide_eq_true_iff]
    constructor
    · intro hlt
      by_contra hgt
      have hts : t < s := by omega
      have hsle : bs.getD s 0 ≤ bs.getD t 0 :=
        pairwise_getD_ge bs hmono t s (le_of_lt hts) hsl
      have hidx : s - (t + 1) < (bs.drop (t + 1)).length := by
        rw [List.length_drop]; omega
      have hmem := getD_mem_nat (bs.drop (t + 1)) 0 (s - (t + 1)) hidx
      rw [getD_drop_nat] at hmem
      have harg : t + 1 + (s - (t + 1)) = s := by omega
      rw [harg] at hmem
      have hneq := hlast _ hmem
      omega
    · intro hst
      have h1 : bs.getD t 0 ≤ bs.getD s 0 := pairwise_getD_ge bs hmono s t hst htl
      omega

/-- Closed instantiation of `final_hidden_assembly` at `data = [0..8]`,
`batch_sizes = [3,3,2,1]`. -/
theorem final_hidden_assembly_witness :
    (∀ (x : List ℕ) (h : Option (List ℕ)), (idUnit x h).length = x.length)
    ∧ ([3, 3, 2, 1] : List Nat).sum = ([0, 1, 2, 3, 4, 5, 6, 7, 8] : List ℕ).length
    ∧ (∀ b ∈ ([3, 3, 2, 1] : List Nat), 0 < b)
    ∧ ([3, 3, 2, 1] : List Nat).Pairwise (· ≥ ·)
    ∧ (targetHiddenStepIndices [3, 3, 2, 1]
        = (List.range ([3, 3, 2, 1] : List Nat).length).filter
            (fun i => (([3, 3, 2, 1] : List Nat).drop (i + 1)).all
              (fun b => b ≠ ([3, 3, 2, 1] : List Nat).getD i 0))
      ∧ (targetHiddenStepIndices [3, 3, 2, 1]).Pairwise (· < ·)
      ∧ (TimeIterator.forward idUnit
            ⟨[0, 1, 2, 3, 4, 5, 6, 7, 8], [0, 1, 2], [3, 3, 2, 1]⟩ none).2
          = ((targetHiddenStepIndices [3, 3, 2, 1]).reverse).map
              (fun t => ((hiddenStates idUnit
                  (segments [0, 1, 2, 3, 4, 5, 6, 7, 8] [3, 3, 2, 1]) none).getD t []).getD
                (([3, 3, 2, 1] : List Nat).getD t 0 - 1) 0)
      ∧ ∀ t ∈ targetHiddenStepIndices [3, 3, 2, 1],
          ((List.range ([3, 3, 2, 1] : List Nat).length).filter
            (fun s => ([3, 3, 2, 1] : List Nat).getD t 0 - 1
              < ([3, 3, 2, 1] : List Nat).getD s 0)).length = t + 1) :=
  ⟨fun _ _ => rfl, by decide, by decide, by decide,
   final_hidden_assembly idUnit (fun _ _ => rfl) [0, 1, 2, 3, 4, 5, 6, 7, 8]
     [0, 1, 2] [3, 3, 2, 1] none 0 (by decide) (by decide) (by decide)⟩

/-- **C9.** The `PackedSequence` returned by `TimeIterator.forward` carries
the input's `sorted_indices` and `batch_sizes` unchanged, and its data
tensor is `tensor.cat(hidden_states)`: the concatenation of the
per-timestep hidden states along the leading dimension, in timestep
order. -/
theorem output_packed_sequence_frame {α β : Type}
    (unit : List α → Option (List β) → List β)
    (input : PackedSequence α) (h0 : Option (List β)) :
    (TimeIterator.forward unit input h0).1.sorted_indices = input.sorted_indices
    ∧ (TimeIterator.forward unit input h0).1.batch_sizes = input.batch_sizes
    ∧ (TimeIterator.forward unit input h0).1.data
        = (hiddenStates unit (segments input.data input.batch_sizes) h0).flatten :=
  ⟨rfl, rfl, rfl⟩

/-- **C7.** On the malformed `batch_sizes = [2,3,1]` (increasing then
decreasing, with `sum = 6` matching the data length) `TimeIterator.forward`
performs no validation: it silently slices the data into segments of sizes
2, 3, 1 and returns an ordinary result (the third timestep even receives a
previous hidden truncated to 2 rows where 3 are active).  The computation
runs to completion instead of raising a validation error. -/
theorem malformed_batch_sizes_not_rejected :
    TimeIterator.forward idUnit ⟨[0, 1, 2, 3, 4, 5], [0, 1, 2], [2, 3, 1]⟩ none
      = (⟨[0, 1, 2, 3, 4, 5], [0, 1, 2], [2, 3, 1]⟩, [5, 4, 1])
    ∧ prevHiddens idUnit (segments [0, 1, 2, 3, 4, 5] [2, 3, 1]) none
      = [none, some [0, 1], some [2]] := by
  constructor
  · rfl
  · rfl

/-- **C3, counterexample.** For `batch_sizes = [3,3,2,1]` (9 data rows) the
final-hidden tensor returned by `TimeIterator.forward` has 3 rows, not 4:
`[3,3,2,1]` encodes `batch_sizes[0] = 3` samples, and the assembly picks one
row per distinct `batch_sizes` value. -/
theorem packed_3321_final_hidden_not_four_rows :
    ¬ ((TimeIterator.forward idUnit
        ⟨[0, 1, 2, 3, 4, 5, 6, 7, 8], [0, 1, 2], [3, 3, 2, 1]⟩ none).2.length = 4) := by
  decide

/-- **C3, amended.** For `batch_sizes = [3,3,2,1]` (3 samples of lengths
`[4,3,2]`), the output packed data's leading dimension is
`sum(batch_sizes) = 9` and the final-hidden tensor has exactly 3 rows — one
per sample, ordered by descending original length: the rows are the exit
rows of timesteps 3, 2, 1 (samples of lengths 4, 3, 2). -/
theorem packed_3321_output_shapes :
    (TimeIterator.forward idUnit
        ⟨[0, 1, 2, 3, 4, 5, 6, 7, 8], [0, 1, 2], [3, 3, 2, 1]⟩ none).1.data.length = 9
    ∧ (TimeIterator.forward idUnit
        ⟨[0, 1, 2, 3, 4, 5, 6, 7, 8], [0, 1, 2], [3, 3, 2, 1]⟩ none).2.length = 3
    ∧ (TimeIterator.forward idUnit
        ⟨[0, 1, 2, 3, 4, 5, 6, 7, 8], [0, 1, 2], [3, 3, 2, 1]⟩ none).2 = [8, 7, 5] := by
  decide

/-- **C4, counterexample.** For the single-timestep batch
`batch_sizes = [2]` with data `[5, 7]`, the final-hidden tensor returned by
`TimeIterator.forward` is `[7]` — only the last row of the single
`hidden_states` entry `[5, 7]` — not the full entry with all `B = 2`
rows. -/
theorem single_timestep_final_hidden_not_full_entry :
    ¬ ((TimeIterator.forward idUnit ⟨[5, 7], [0, 1], [2]⟩ none).2
        = (hiddenStates idUnit (segments [5, 7] [2]) none).getD 0 []) := by
  decide

/-- **C4, amended.** For every single-timestep packed batch
(`batch_sizes = [B]`, data of `B` rows), `TimeIterator.forward` makes
exactly one unit call, whose hidden argument is the caller's `hidden0`;
`hidden_states` has exactly one entry, `unit(data, hidden0)`; and the
final-hidden tensor is the **last row** of that entry (so it equals the
full entry only when that entry has a single row). -/
theorem single_timestep_batch {α β : Type}
    (unit : List α → Option (List β) → List β)
    (data : List α) (B : Nat) (si : List Nat) (h0 : Option (List β))
    (hB : data.length = B) :
    steps unit (segments data [B]) h0 = [(h0, unit data h0)]
    ∧ hiddenStates unit (segments data [B]) h0 = [unit data h0]
    ∧ (TimeIterator.forward unit ⟨data, si, [B]⟩ h0).2
        = (unit data h0).drop ((unit data h0).length - 1) := by
  have hseg : segments data [B] = [data] := by
    simp [segments, List.take_of_length_le (le_of_eq hB)]
  have hsteps : steps unit (segments data [B]) h0 = [(h0, unit data h0)] := by
    rw [hseg]; rfl
  refine ⟨hsteps, ?_, ?_⟩
  · rw [hiddenStates, hsteps]; rfl
  · show (((targetHiddenStepIndices [B]).map
        (fun i => (hiddenStepPerBatch
          (hiddenStates unit (segments data [B]) h0)).getD i [])).reverse).flatten
      = (unit data h0).drop ((unit data h0).length - 1)
    have htarget : targetHiddenStepIndices [B] = [0] := by
      rw [targetHiddenStepIndices, List.dedup_cons_of_not_mem (by simp),
        List.dedup_nil]
      simp [lastOccurrence, List.insertionSort]
    rw [htarget, hiddenStates, hsteps]
    simp [hiddenStepPerBatch]

theorem range_map_getD {γ : Type} (l : List γ) (d : γ) :
    (List.range l.length).map (fun k => l.getD k d) = l := by
  induction l with
  | nil => rfl
  | cons a as ih =>
    rw [List.length_cons, List.range_succ_eq_map, List.map_cons, List.map_map]
    have hcomp : ((fun k => (a :: as).getD k d) ∘ Nat.succ) = fun k => as.getD k d :=
      funext (fun _ => rfl)
    rw [hcomp, ih]
    rfl

theorem transposeMat_transposeMat (W : List (List ℚ)) (n : Nat)
    (hWr : ∀ r ∈ W, r.length = n) (hn : 0 < n) :
    transposeMat (transposeMat W) = W := by
  cases W with
  | nil => rfl
  | cons w rest =>
    obtain ⟨m, rfl⟩ : ∃ m, n = m + 1 := ⟨n - 1, by omega⟩
    have hw : w.length = m + 1 := hWr w (by simp)
    have hTW : transposeMat (w :: rest)
        = (List.range (m + 1)).map (fun j => (w :: rest).map (fun r => r.getD j 0)) := by
      rw [transposeMat]
      have hhead : ((w :: rest).headD []).length = m + 1 := by simpa using hw
      rw [hhead]
    rw [hTW, transposeMat]
    have hhead2 : (((List.range (m + 1)).map
        (fun j => (w :: rest).map (fun r => r.getD j 0))).headD [])
        = (w :: rest).map (fun r => r.getD 0 0) := by
      rw [List.range_succ_eq_map, List.map_cons]
      rfl
    rw [hhead2]
    have hlen2 : (((w :: rest).map (fun r => r.getD 0 0))).length
        = (w :: rest).length := by simp
    rw [hlen2]
    refine List.ext_getElem (by simp) ?_
    intro i hi1 hi2
    rw [List.getElem_map, List.getElem_range, List.map_map]
    have hrow : ∀ j ∈ List.range (m + 1),
        ((fun c => c.getD i 0) ∘ fun j => (w :: rest).map (fun r => r.getD j 0)) j
          = ((w :: rest).getD i []).getD j 0 := by
      intro j _
      exact getD_map_fn (fun r => r.getD j 0) (w :: rest) [] i
    rw [List.map_congr_left hrow]
    have hi : i < (w :: rest).length := by simpa using hi2
    have hrowlen : ((w :: rest).getD i []).length = m + 1 :=
      hWr _ (getD_mem_nat (w :: rest) [] i hi)
    rw [← hrowlen, range_map_getD ((w :: rest).getD i []) 0]
    exact (getD_eq_get_nat (w :: rest) [] i hi).trans (List.get_eq_getElem _ _)

theorem matMul_transposeMat (A W : List (List ℚ)) (n : Nat)
    (hWr : ∀ r ∈ W, r.length = n) (hn : 0 < n) :
    matMul A (transposeMat W) = A.map (fun r => W.map (fun wr => dot r wr)) := by
  rw [matMul, transposeMat_transposeMat W n hWr hn]

/-- **C5.** For `x` of shape `[B, input_size]` and `hidden` of shape
`[B, hidden_size]`, `RNNUnit.forward` returns the `[B, hidden_size]` tensor
whose entry `(i, j)` is
`act((x_i . weight_ih_j + bias_ih_j) + (hidden_i . weight_hh_j + bias_hh_j))`
— that is, `act((x @ transpose(weight_ih) + bias_ih) +
(hidden @ transpose(weight_hh) + bias_hh))` with `act` the configured
nonlinearity. -/
theorem rnn_unit_forward_formula (u : RNNUnit) (x h : Tensor) (f : ℚ → ℚ)
    (B n : Nat)
    (hact : u.act = some f)
    (hxB : x.data.length = B) (hxr : ∀ r ∈ x.data, r.length = n)
    (hhB : h.data.length = B) (hhr : ∀ r ∈ h.data, r.length = u.hidden_size)
    (hWih : u.weight_ih.length = u.hidden_size)
    (hWihr : ∀ r ∈ u.weight_ih, r.length = n)
    (hWhh : u.weight_hh.length = u.hidden_size)
    (hWhhr : ∀ r ∈ u.weight_hh, r.length = u.hidden_size)
    (hbih : u.bias_ih.length = u.hidden_size)
    (hbhh : u.bias_hh.length = u.hidden_size)
    (hn : 0 < n) (hH : 0 < u.hidden_size) :
    u.forward x (some h)
      = some ((List.range B).map (fun i => (List.range u.hidden_size).map (fun j =>
          f ((dot (x.data.getD i []) (u.weight_ih.getD j []) + u.bias_ih.getD j 0)
            + (dot (h.data.getD i []) (u.weight_hh.getD j [])
              + u.bias_hh.getD j 0))))) := by
  have hws : matAdd (addRowVec (matMul x.data (transposeMat u.weight_ih)) u.bias_ih)
      (addRowVec (matMul h.data (transposeMat u.weight_hh)) u.bias_hh)
      = (List.range B).map (fun i => (List.range u.hidden_size).map (fun j =>
          (dot (x.data.getD i []) (u.weight_ih.getD j []) + u.bias_ih.getD j 0)
          + (dot (h.data.getD i []) (u.weight_hh.getD j [])
            + u.bias_hh.getD j 0))) := by
    rw [matMul_transposeMat x.data u.weight_ih n hWihr hn,
      matMul_transposeMat h.data u.weight_hh u.hidden_size hWhhr hH]
    refine List.ext_getElem ?_ ?_
    · simp [matAdd, addRowVec, hxB, hhB]
    · intro i hi1 hi2
      have hiB : i < B := by simpa using hi2
      have hix : i < x.data.length := by omega
      have hih : i < h.data.length := by omega
      simp only [matAdd, addRowVec, List.getElem_zipWith, List.getElem_map,
        List.getElem_range]
      refine List.ext_getElem ?_ ?_
      · simp [hWih, hWhh, hbih, hbhh]
      · intro j hj1 hj2
        have hjH : j < u.hidden_size := by simpa using hj2
        have hjW : j < u.weight_ih.length := by omega
        have hjW2 : j < u.weight_hh.length := by omega
        have hjb : j < u.bias_ih.length := by omega
        have hjb2 : j < u.bias_hh.length := by omega
        simp only [List.getElem_zipWith, List.getElem_map, List.getElem_range]
        rw [List.getD_eq_getElem x.data ([] : List ℚ) hix,
          List.getD_eq_getElem h.data ([] : List ℚ) hih,
          List.getD_eq_getElem u.weight_ih ([] : List ℚ) hjW,
          List.getD_eq_getElem u.weight_hh ([] : List ℚ) hjW2,
          List.getD_eq_getElem u.bias_ih (0 : ℚ) hjb,
          List.getD_eq_getElem u.bias_hh (0 : ℚ) hjb2]
  have hfwd : u.forward x (some h)
      = match u.act with
        | some g => some ((matAdd
            (addRowVec (matMul x.data (transposeMat u.weight_ih)) u.bias_ih)
            (addRowVec (matMul h.data (transposeMat u.weight_hh)) u.bias_hh)).map
              (fun r => r.map g))
        | none => none := rfl
  rw [hfwd, hact, hws]
  simp [List.map_map, Function.comp_def]

/-- Closed instantiation of `rnn_unit_forward_formula` at a concrete
1-hidden-unit `RNNUnit` with identity activation. -/
theorem rnn_unit_forward_formula_witness :
    (sampleRNNUnit.act = some id)
    ∧ sampleX.data.length = 1
    ∧ (∀ r ∈ sampleX.data, r.length = 2)
    ∧ sampleH.data.length = 1
    ∧ (∀ r ∈ sampleH.data, r.length = sampleRNNUnit.hidden_size)
    ∧ sampleRNNUnit.weight_ih.length = sampleRNNUnit.hidden_size
    ∧ (∀ r ∈ sampleRNNUnit.weight_ih, r.length = 2)
    ∧ sampleRNNUnit.weight_hh.length = sampleRNNUnit.hidden_size
    ∧ (∀ r ∈ sampleRNNUnit.weight_hh, r.length = sampleRNNUnit.hidden_size)
    ∧ sampleRNNUnit.bias_ih.length = sampleRNNUnit.hidden_size
    ∧ sampleRNNUnit.bias_hh.length = sampleRNNUnit.hidden_size
    ∧ 0 < 2 ∧ 0 < sampleRNNUnit.hidden_size
    ∧ sampleRNNUnit.forward sampleX (some sampleH)
        = some ((List.range 1).map (fun i =>
            (List.range sampleRNNUnit.hidden_size).map (fun j =>
              id ((dot (sampleX.data.getD i [])
                    (sampleRNNUnit.weight_ih.getD j [])
                  + sampleRNNUnit.bias_ih.getD j 0)
                + (dot (sampleH.data.getD i [])
                    (sampleRNNUnit.weight_hh.getD j [])
                  + sampleRNNUnit.bias_hh.getD j 0))))) :=
  ⟨rfl, by decide, by decide, by decide, by decide, by decide, by decide,
   by decide, by decide, by decide, by decide, by decide, by decide,
   rnn_unit_forward_formula sampleRNNUnit sampleX sampleH id 1 2 rfl
     (by decide) (by decide) (by decide) (by decide) (by decide) (by decide)
     (by decide) (by decide) (by decide) (by decide) (by decide) (by decide)⟩

/-- **C6.** Calling `RNNUnit.forward` with `hidden = None` gives the same
result as calling it with an explicit all-zero tensor of shape
`[B, hidden_size]` (whatever that tensor's gradient flags); and the
synthesized zero hidden is itself constructed with `requires_grad = True`
and `is_parameter = True`. -/
theorem zero_hidden_default (u : RNNUnit) (x : Tensor) (rg ip : Bool) :
    u.forward x none
      = u.forward x (some ⟨zerosMat x.data.length u.hidden_size, rg, ip⟩)
    ∧ (synthesizedHidden x u.hidden_size).data
        = zerosMat x.data.length u.hidden_size
    ∧ (synthesizedHidden x u.hidden_size).requires_grad = true
    ∧ (synthesizedHidden x u.hidden_size).is_parameter = true :=
  ⟨rfl, rfl, rfl, rfl⟩

/-- **C8.** For every nonlinearity string other than `"tanh"` and `"relu"`,
`RNNUnit` construction succeeds silently — it returns a unit whose
parameters are in place but whose activation is unset — and the failure
surfaces only at a forward call, which hits the missing activation
(`none`, modelling the `AttributeError` at `self.act`) after the affine
computation, never at construction time. -/
theorem unrecognized_nonlinearity_deferred_failure
    (hidden_size : Nat) (w_ih w_hh : List (List ℚ)) (s : String)
    (tanhF reluF : ℚ → ℚ) (x : Tensor) (hidden : Option Tensor)
    (hs1 : s ≠ "tanh") (hs2 : s ≠ "relu") :
    (RNNUnit.init hidden_size w_ih w_hh s tanhF reluF).act = none
    ∧ (RNNUnit.init hidden_size w_ih w_hh s tanhF reluF).weight_ih = w_ih
    ∧ (RNNUnit.init hidden_size w_ih w_hh s tanhF reluF).bias_ih
        = List.replicate hidden_size 0
    ∧ (RNNUnit.init hidden_size w_ih w_hh s tanhF reluF).forward x hidden = none := by
  have hact : (RNNUnit.init hidden_size w_ih w_hh s tanhF reluF).act = none := by
    simp [RNNUnit.init, hs1, hs2]
  refine ⟨hact, rfl, rfl, ?_⟩
  simp [RNNUnit.forward, hact]

/-- Closed instantiation of `unrecognized_nonlinearity_deferred_failure` at
the nonlinearity string `"sigmoid"`. -/
theorem unrecognized_nonlinearity_witness :
    ("sigmoid" ≠ "tanh") ∧ ("sigmoid" ≠ "relu")
    ∧ ((RNNUnit.init 1 [[1]] [[1]] "sigmoid" id id).act = none
      ∧ (RNNUnit.init 1 [[1]] [[1]] "sigmoid" id id).weight_ih = [[1]]
      ∧ (RNNUnit.init 1 [[1]] [[1]] "sigmoid" id id).bias_ih = List.replicate 1 0
      ∧ (RNNUnit.init 1 [[1]] [[1]] "sigmoid" id id).forward
          ⟨[[1]], false, false⟩ none = none) :=
  ⟨by decide, by decide,
   unrecognized_nonlinearity_deferred_failure 1 [[1]] [[1]] "sigmoid" id id
     ⟨[[1]], false, false⟩ none (by decide) (by decide)⟩

/-- Closed instantiation of `single_timestep_batch` at `data = [5, 7]`,
`batch_sizes = [2]`. -/
theorem single_timestep_batch_witness :
    ([5, 7] : List ℕ).length = 2
    ∧ (steps idUnit (segments [5, 7] [2]) none = [(none, idUnit [5, 7] none)]
      ∧ hiddenStates idUnit (segments [5, 7] [2]) none = [idUnit [5, 7] none]
      ∧ (TimeIterator.forward idUnit ⟨[5, 7], [0, 1], [2]⟩ none).2
          = (idUnit [5, 7] none).drop ((idUnit [5, 7] none).length - 1)) :=
  ⟨by decide, single_timestep_batch idUnit [5, 7] 2 [0, 1] none (by decide)⟩

/-- Closed instantiation of `prev_hidden_is_truncation` at a concrete packed
input (`data = [10,11,12]`, `batch_sizes = [2,1]`, `t = 1`). -/
theorem prev_hidden_is_truncation_witness :
    (∀ (x : List ℕ) (h : Option (List ℕ)), (idUnit x h).length = x.length)
    ∧ ([2, 1] : List Nat).sum = ([10, 11, 12] : List ℕ).length
    ∧ ([2, 1] : List Nat).Pairwise (· ≥ ·)
    ∧ 0 < 1 ∧ 1 < ([2, 1] : List Nat).length
    ∧ ((prevHiddens idUnit (segments [10, 11, 12] [2, 1]) none).getD 1 none
        = some (((hiddenStates idUnit (segments [10, 11, 12] [2, 1]) none).getD (1 - 1) []).take
            (([2, 1] : List Nat).getD 1 0))
      ∧ (((hiddenStates idUnit (segments [10, 11, 12] [2, 1]) none).getD (1 - 1) []).take
            (([2, 1] : List Nat).getD 1 0)).length = ([2, 1] : List Nat).getD 1 0) :=
  ⟨fun _ _ => rfl, by decide, by decide, by decide, by decide,
   prev_hidden_is_truncation idUnit (fun _ _ => rfl) [10, 11, 12] [2, 1] none 1
     (by decide) (by decide) (by decide) (by decide)⟩

/-- **C10.** Each `SGD.step` call updates, at every parameter index `i`,
the velocity to `momentum * momentums[i] - lr * params[i].grad.data` and
then sets `params[i].data` to `params[i].data + momentums[i]` (the freshly
updated velocity); with `momentum = 0` this is plain gradient descent
`p <- p - lr * grad`; parameter shapes (and the gradient buffers) are
unchanged. -/
theorem sgd_step_update (s : SGD) (i : Nat)
    (hi : i < s.params.length)
    (hlen : s.momentums.length = s.params.length)
    (hg : (s.params.getD i ⟨[], []⟩).grad.length
        = (s.params.getD i ⟨[], []⟩).data.length)
    (hm : (s.momentums.getD i []).length
        = (s.params.getD i ⟨[], []⟩).data.length) :
    ((s.step).momentums.getD i []).length = (s.params.getD i ⟨[], []⟩).data.length
    ∧ ((s.step).params.getD i ⟨[], []⟩).data.length
        = (s.params.getD i ⟨[], []⟩).data.length
    ∧ (s.step).params.length = s.params.length
    ∧ (s.step).momentums.length = s.params.length
    ∧ ((s.step).params.getD i ⟨[], []⟩).grad = (s.params.getD i ⟨[], []⟩).grad
    ∧ (∀ j, j < (s.params.getD i ⟨[], []⟩).data.length →
        ((s.step).momentums.getD i []).getD j 0
          = s.momentum * (s.momentums.getD i []).getD j 0
            - s.lr * (s.params.getD i ⟨[], []⟩).grad.getD j 0)
    ∧ (∀ j, j < (s.params.getD i ⟨[], []⟩).data.length →
        ((s.step).params.getD i ⟨[], []⟩).data.getD j 0
          = (s.params.getD i ⟨[], []⟩).data.getD j 0
            + ((s.step).momentums.getD i []).getD j 0)
    ∧ (s.momentum = 0 →
        ∀ j, j < (s.params.getD i ⟨[], []⟩).data.length →
          ((s.step).params.getD i ⟨[], []⟩).data.getD j 0
            = (s.params.getD i ⟨[], []⟩).data.getD j 0
              - s.lr * (s.params.getD i ⟨[], []⟩).grad.getD j 0) := by
  have hzl : (s.momentums.zip s.params).length = s.params.length := by
    rw [List.length_zip, hlen, Nat.min_self]
  have hmomlen : (s.step).momentums.length = s.params.length := by
    simp [SGD.step, hzl]
  have hparlen : (s.step).params.length = s.params.length := by
    simp [SGD.step, hzl]
  have hizip : i < (s.momentums.zip s.params).length := by omega
  have himom : i < (s.step).momentums.length := by omega
  have hipar : i < (s.step).params.length := by omega
  have hii : i < s.momentums.length := by omega
  have hzipi : (s.momentums.zip s.params)[i]
      = (s.momentums[i], s.params[i]) := List.getElem_zip
  have hmomi : (s.step).momentums.getD i []
      = vsub (vscale s.momentum s.momentums[i]) (vscale s.lr s.params[i].grad) := by
    rw [List.getD_eq_getElem ((s.step).momentums) [] himom]
    simp only [SGD.step, List.getElem_map, hzipi, stepParam]
  have hpari : (s.step).params.getD i ⟨[], []⟩
      = ⟨vadd s.params[i].data
          (vsub (vscale s.momentum s.momentums[i]) (vscale s.lr s.params[i].grad)),
        s.params[i].grad⟩ := by
    rw [List.getD_eq_getElem ((s.step).params) (⟨[], []⟩ : Param) hipar]
    simp only [SGD.step, List.getElem_map, hzipi, stepParam]
  have hpd : s.params.getD i ⟨[], []⟩ = s.params[i] :=
    List.getD_eq_getElem s.params (⟨[], []⟩ : Param) hi
  have hmd : s.momentums.getD i [] = s.momentums[i] :=
    List.getD_eq_getElem s.momentums [] hii
  simp only [hpd, hmd] at hg hm ⊢
  simp only [hmomi, hpari]
  have hglen : s.params[i].grad.length = s.params[i].data.length := hg
  have hvlen : (vsub (vscale s.momentum s.momentums[i])
      (vscale s.lr s.params[i].grad)).length = s.params[i].data.length := by
    simp [vsub, vscale, hglen, hm]
  refine ⟨hvlen, ?_, hparlen, hmomlen, trivial, ?_, ?_, ?_⟩
  · simp [vadd, hvlen]
  · intro j hj
    have hjm : j < s.momentums[i].length := by omega
    have hjg : j < s.params[i].grad.length := by omega
    have hjv : j < (vsub (vscale s.momentum s.momentums[i])
        (vscale s.lr s.params[i].grad)).length := by omega
    rw [List.getD_eq_getElem _ (0 : ℚ) hjv,
      List.getD_eq_getElem s.momentums[i] (0 : ℚ) hjm,
      List.getD_eq_getElem (s.params[i].grad) (0 : ℚ) hjg]
    simp [vsub, vscale, List.getElem_zipWith]
  · intro j hj
    have hjv : j < (vsub (vscale s.momentum s.momentums[i])
        (vscale s.lr s.params[i].grad)).length := by omega
    have hja : j < (vadd s.params[i].data
        (vsub (vscale s.momentum s.momentums[i])
          (vscale s.lr s.params[i].grad))).length := by
      simp [vadd, hvlen]
      omega
    rw [List.getD_eq_getElem _ (0 : ℚ) hja,
      List.getD_eq_getElem _ (0 : ℚ) hjv,
      List.getD_eq_getElem (s.params[i].data) (0 : ℚ) hj]
    simp [vadd, List.getElem_zipWith]
  · intro hmu j hj
    have hjg : j < s.params[i].grad.length := by omega
    have hja : j < (vadd s.params[i].data
        (vsub (vscale s.momentum s.momentums[i])
          (vscale s.lr s.params[i].grad))).length := by
      simp [vadd, hvlen]
      omega
    rw [List.getD_eq_getElem _ (0 : ℚ) hja,
      List.getD_eq_getElem (s.params[i].data) (0 : ℚ) hj,
      List.getD_eq_getElem (s.params[i].grad) (0 : ℚ) hjg]
    simp [vadd, vsub, vscale, List.getElem_zipWith, hmu]
    ring

/-- Closed instantiation of `sgd_step_update` at a one-parameter state. -/
theorem sgd_step_update_witness :
    0 < (SGD.init [⟨[10], [2]⟩] 1 0).params.length
    ∧ (SGD.init [⟨[10], [2]⟩] 1 0).momentums.length
        = (SGD.init [⟨[10], [2]⟩] 1 0).params.length
    ∧ ((SGD.init [⟨[10], [2]⟩] 1 0).params.getD 0 ⟨[], []⟩).grad.length
        = ((SGD.init [⟨[10], [2]⟩] 1 0).params.getD 0 ⟨[], []⟩).data.length
    ∧ ((SGD.init [⟨[10], [2]⟩] 1 0).momentums.getD 0 []).length
        = ((SGD.init [⟨[10], [2]⟩] 1 0).params.getD 0 ⟨[], []⟩).data.length
    ∧ (∀ j, j < ((SGD.init [⟨[10], [2]⟩] 1 0).params.getD 0 ⟨[], []⟩).data.length →
        (((SGD.init [⟨[10], [2]⟩] 1 0).step).params.getD 0 ⟨[], []⟩).data.getD j 0
          = ((SGD.init [⟨[10], [2]⟩] 1 0).params.getD 0 ⟨[], []⟩).data.getD j 0
            + (((SGD.init [⟨[10], [2]⟩] 1 0).step).momentums.getD 0 []).getD j 0) :=
  ⟨by decide, by decide, by decide, by decide,
   (sgd_step_update (SGD.init [⟨[10], [2]⟩] 1 0) 0 (by decide) (by decide)
     (by decide) (by decide)).2.2.2.2.2.2.1⟩

end MyTorch
